import Mathlib

/-!
Verification of the CharacterBERT tokenizer
(`src/transformers/models/character_bert/tokenization_character_bert.py`).

The development shallowly embeds the tokenizer's pure core:

* the per-word byte encoder `_convert_token_to_id` and decoder
  `_convert_id_to_token` (character-id arrays, special arrays, the +1 shift);
* the MLM vocabulary lookups `convert_mlm_token_to_id` / `convert_mlm_id_to_token`;
* sequence assembly (`build_inputs_with_special_tokens`,
  `get_special_tokens_mask`, `create_token_type_ids_from_sequences`);
* the `BasicTokenizer` segmentation pipeline.

Python machine-level details are made explicit: lists of Python ints become
`List Nat` / `List Int`, fallible operations return `Except`, and external
library functions (UTF-8 codecs, Unicode tables) are modelled as stated.
-/

namespace CharacterBert

/-- Source constant `PAD_CHARACTER_ID = 260` (intra-word filler identity). -/
def PAD_CHARACTER_ID : Nat := 260

/-- `self.bow_character_id = 258` (begin-of-word delimiter identity). -/
def bow_character_id : Nat := 258

/-- `self.eow_character_id = 259` (end-of-word delimiter identity). -/
def eow_character_id : Nat := 259

/-- Writes the bytes `bs` into the list `ids` at consecutive positions
starting at `k`: the loop `for k, index in enumerate(token_bytes, start=1):
character_ids[k] = index` of `_convert_token_to_id` (called with `k = 1`). -/
def setFrom (ids : List Nat) (k : Nat) (bs : List Nat) : List Nat :=
  match bs with
  | [] => ids
  | b :: bs => setFrom (ids.set k b) (k + 1) bs

/-- Source function `special_token_character_ids`: a `max_word_length` array of
`pad_character_id` with BOW at position 0, the marker `index` at position 1 and
EOW at position 2, every entry shifted by `+1`.  (The source's
`assert index > 255` holds at all three call sites: 256, 257, 261.) -/
def special_token_character_ids (index bow eow pad max_word_length : Nat) :
    List Nat :=
  let character_ids := List.replicate max_word_length pad
  let character_ids := character_ids.set 0 bow
  let character_ids := character_ids.set 1 index
  let character_ids := character_ids.set 2 eow
  character_ids.map (fun i => i + 1)

/-- UTF-8 encoding of one Unicode scalar value, modelling what Python's
`str.encode("utf-8")` emits for one character.  Lean `Char`s are always
encodable, so the source's `"ignore"` error handler never fires. -/
def utf8EncodeChar (c : Char) : List Nat :=
  let n := c.toNat
  if n < 0x80 then [n]
  else if n < 0x800 then [0xC0 + n / 0x40, 0x80 + n % 0x40]
  else if n < 0x10000 then
    [0xE0 + n / 0x1000, 0x80 + (n / 0x40) % 0x40, 0x80 + n % 0x40]
  else
    [0xF0 + n / 0x40000, 0x80 + (n / 0x1000) % 0x40, 0x80 + (n / 0x40) % 0x40,
      0x80 + n % 0x40]

/-- `token.encode("utf-8")` as a list of byte values. -/
def utf8Encode (s : List Char) : List Nat :=
  match s with
  | [] => []
  | c :: cs => utf8EncodeChar c ++ utf8Encode cs

/-- Is `b` a UTF-8 continuation byte (`0x80`–`0xBF`)? -/
def utf8IsCont (b : Nat) : Bool := 0x80 ≤ b && b < 0xC0

/-- Strict UTF-8 decoding of a byte list, modelling Python's
`bytes.decode("utf-8")`: rejects overlong forms, surrogates and values above
`0x10FFFF`, returning `none` where Python raises `UnicodeDecodeError`. -/
def utf8Decode (bs : List Nat) : Option (List Char) :=
  match bs with
  | [] => some []
  | b :: rest =>
    if b < 0x80 then
      (utf8Decode rest).map (fun cs => Char.ofNat b :: cs)
    else if 0xC2 ≤ b && b ≤ 0xDF then
      match rest with
      | b2 :: rest2 =>
        if utf8IsCont b2 then
          (utf8Decode rest2).map
            (fun cs => Char.ofNat ((b - 0xC0) * 0x40 + (b2 - 0x80)) :: cs)
        else none
      | [] => none
    else if 0xE0 ≤ b && b ≤ 0xEF then
      match rest with
      | b2 :: b3 :: rest3 =>
        if utf8IsCont b2 && utf8IsCont b3
            && (b ≠ 0xE0 || 0xA0 ≤ b2) && (b ≠ 0xED || b2 < 0xA0) then
          (utf8Decode rest3).map
            (fun cs =>
              Char.ofNat ((b - 0xE0) * 0x1000 + (b2 - 0x80) * 0x40 + (b3 - 0x80))
                :: cs)
        else none
      | _ => none
    else if 0xF0 ≤ b && b ≤ 0xF4 then
      match rest with
      | b2 :: b3 :: b4 :: rest4 =>
        if utf8IsCont b2 && utf8IsCont b3 && utf8IsCont b4
            && (b ≠ 0xF0 || 0x90 ≤ b2) && (b ≠ 0xF4 || b2 < 0x90) then
          (utf8Decode rest4).map
            (fun cs =>
              Char.ofNat ((b - 0xF0) * 0x40000 + (b2 - 0x80) * 0x1000
                  + (b3 - 0x80) * 0x40 + (b4 - 0x80)) :: cs)
        else none
      | _ => none
    else none

/-- The state of a constructed `CharacterBertTokenizer`: the configuration
fields read by the encode/decode, MLM-lookup and sequence-assembly methods.
The constructor rejects `max_word_length < 3`; theorems that depend on that
invariant carry it as a hypothesis. -/
structure Tokenizer where
  max_word_length : Nat := 50
  unk_token : String := "[UNK]"
  sep_token : String := "[SEP]"
  pad_token : String := "[PAD]"
  cls_token : String := "[CLS]"
  mask_token : String := "[MASK]"
  mlm_vocab : List (String × Nat) := []

/-- `self.cls_character_ids` as computed in `__init__` (marker identity 256). -/
def Tokenizer.cls_character_ids (t : Tokenizer) : List Nat :=
  special_token_character_ids 256 bow_character_id eow_character_id
    PAD_CHARACTER_ID t.max_word_length

/-- `self.sep_character_ids` as computed in `__init__` (marker identity 257). -/
def Tokenizer.sep_character_ids (t : Tokenizer) : List Nat :=
  special_token_character_ids 257 bow_character_id eow_character_id
    PAD_CHARACTER_ID t.max_word_length

/-- `self.mask_character_ids` as computed in `__init__` (marker identity 261). -/
def Tokenizer.mask_character_ids (t : Tokenizer) : List Nat :=
  special_token_character_ids 261 bow_character_id eow_character_id
    PAD_CHARACTER_ID t.max_word_length

/-- `self.pad_character_ids = [0] * max_word_length`. -/
def Tokenizer.pad_character_ids (t : Tokenizer) : List Nat :=
  List.replicate t.max_word_length 0

/-- The pre-shift array built by the ordinary-token branch of
`_convert_token_to_id`: truncated UTF-8 bytes framed by BOW/EOW over a
`pad_character_id` background (everything before the final `+1` shift). -/
def ordinary_preshift (max_word_length : Nat) (token : String) : List Nat :=
  let token_bytes := (utf8Encode token.data).take (max_word_length - 2)
  let character_ids := List.replicate max_word_length PAD_CHARACTER_ID
  let character_ids := character_ids.set 0 bow_character_id
  let character_ids := setFrom character_ids 1 token_bytes
  character_ids.set (token_bytes.length + 1) eow_character_id

/-- Source method `_convert_token_to_id`: dispatch on the four special token
strings, otherwise encode the token's truncated UTF-8 bytes and apply the
uniform `+1` shift. -/
def Tokenizer.convert_token_to_id (t : Tokenizer) (token : String) : List Nat :=
  if token = t.cls_token then t.cls_character_ids
  else if token = t.sep_token then t.sep_character_ids
  else if token = t.mask_token then t.mask_character_ids
  else if token = t.pad_token then t.pad_character_ids
  else (ordinary_preshift t.max_word_length token).map (fun i => i + 1)

/-- The ways `_convert_id_to_token` can raise. -/
inductive DecodeError where
  /-- The `assert len(character_ids) != self.max_word_length` failed
  (an `AssertionError`; note the inequality in the source). -/
  | lengthAssert : DecodeError
  /-- `bytes(utf8_codes)` raised `ValueError`: some filtered value is not a
  byte in `0..255` (for instance `-1` or a marker identity). -/
  | byteOutOfRange : DecodeError
  /-- `.decode("utf-8")` raised `UnicodeDecodeError`. -/
  | invalidUtf8 : DecodeError
deriving DecidableEq, Repr

/-- Source method `_convert_id_to_token`, translated exactly as written:
the length assert with its inverted inequality, the `-1` un-shift, the four
comparisons against the *stored* (shifted) special arrays, the filter of
pad/BOW/EOW identities, and the strict UTF-8 decode.  Entries are `Int`
because the un-shift can produce `-1`. -/
def Tokenizer.convert_id_to_token (t : Tokenizer) (character_ids : List Int) :
    Except DecodeError String :=
  if character_ids.length = t.max_word_length then .error .lengthAssert
  else
    let character_ids_ := character_ids.map (fun i => i - 1)
    if character_ids_ = t.cls_character_ids.map (fun n => (n : Int)) then
      .ok t.cls_token
    else if character_ids_ = t.sep_character_ids.map (fun n => (n : Int)) then
      .ok t.sep_token
    else if character_ids_ = t.mask_character_ids.map (fun n => (n : Int)) then
      .ok t.mask_token
    else if character_ids_ = t.pad_character_ids.map (fun n => (n : Int)) then
      .ok t.pad_token
    else
      let utf8_codes := character_ids_.filter
        (fun x => x ≠ (PAD_CHARACTER_ID : Int) && x ≠ (bow_character_id : Int)
          && x ≠ (eow_character_id : Int))
      if utf8_codes.all (fun x => 0 ≤ x && x < 256) then
        match utf8Decode (utf8_codes.map Int.toNat) with
        | some cs => .ok (String.mk cs)
        | none => .error .invalidUtf8
      else .error .byteOutOfRange

/-- First-match association lookup, modelling `dict.get` on a dictionary
represented as its key-ordered item list. -/
def assocGet {β : Type} (l : List (Nat × β)) (k : Nat) : Option β :=
  (l.find? (fun p => p.1 = k)).map (fun p => p.2)

/-- `dict.get` for the string-keyed MLM vocabulary. -/
def vocabGet (l : List (String × Nat)) (k : String) : Option Nat :=
  (l.find? (fun p => p.1 = k)).map (fun p => p.2)

/-- One Python `dict` update `d[k] = v`: replace the value at an existing key
in place, otherwise append the new binding. -/
def assocUpd {β : Type} (l : List (Nat × β)) (k : Nat) (v : β) :
    List (Nat × β) :=
  match l with
  | [] => [(k, v)]
  | (k', v') :: rest =>
    if k' = k then (k, v) :: rest else (k', v') :: assocUpd rest k v

/-- `self.mlm_ids_to_tokens = OrderedDict([(ids, tok) for tok, ids in
self.mlm_vocab.items()])` — a dict built from the swapped item list, with
later duplicate ids overriding earlier ones. -/
def Tokenizer.mlm_ids_to_tokens (t : Tokenizer) : List (Nat × String) :=
  (t.mlm_vocab.map (fun p => (p.2, p.1))).foldl
    (fun acc p => assocUpd acc p.1 p.2) []

/-- Source method `convert_mlm_token_to_id`:
`self.mlm_vocab.get(token, self.mlm_vocab.get(self.unk_token))`.
`None` (here `none`) results when both gets miss. -/
def Tokenizer.convert_mlm_token_to_id (t : Tokenizer) (token : String) :
    Option Nat :=
  match vocabGet t.mlm_vocab token with
  | some i => some i
  | none => vocabGet t.mlm_vocab t.unk_token

/-- Source method `convert_mlm_id_to_token`:
`self.mlm_ids_to_tokens.get(index, self.unk_token)`. -/
def Tokenizer.convert_mlm_id_to_token (t : Tokenizer) (index : Nat) : String :=
  match assocGet t.mlm_ids_to_tokens index with
  | some tok => tok
  | none => t.unk_token

/-- `self.cls_token_id`: the base class converts `cls_token` through
`_convert_token_to_id`, so here it is the CLS character-id array. -/
def Tokenizer.cls_token_id (t : Tokenizer) : List Nat :=
  t.convert_token_to_id t.cls_token

/-- `self.sep_token_id`, analogously. -/
def Tokenizer.sep_token_id (t : Tokenizer) : List Nat :=
  t.convert_token_to_id t.sep_token

/-- Source method `build_inputs_with_special_tokens`:
`[CLS] X [SEP]` or `[CLS] A [SEP] B [SEP]` over lists of character-id
arrays. -/
def Tokenizer.build_inputs_with_special_tokens (t : Tokenizer)
    (token_ids_0 : List (List Nat)) (token_ids_1 : Option (List (List Nat))) :
    List (List Nat) :=
  match token_ids_1 with
  | none => [t.cls_token_id] ++ token_ids_0 ++ [t.sep_token_id]
  | some ids1 =>
    [t.cls_token_id] ++ token_ids_0 ++ [t.sep_token_id] ++ ids1
      ++ [t.sep_token_id]

/-- Source method `get_special_tokens_mask` in its
`already_has_special_tokens=False` form (the `True` branch delegates to the
base class, an external collaborator outside this file's scope). -/
def Tokenizer.get_special_tokens_mask (t : Tokenizer)
    (token_ids_0 : List (List Nat)) (token_ids_1 : Option (List (List Nat))) :
    List Nat :=
  match token_ids_1 with
  | some ids1 =>
    [1] ++ List.replicate token_ids_0.length 0 ++ [1]
      ++ List.replicate ids1.length 0 ++ [1]
  | none => [1] ++ List.replicate token_ids_0.length 0 ++ [1]

/-- Source method `create_token_type_ids_from_sequences`:
`len(cls + token_ids_0 + sep) * [0]` and, for a pair,
`... + len(token_ids_1 + sep) * [1]`. -/
def Tokenizer.create_token_type_ids_from_sequences (t : Tokenizer)
    (token_ids_0 : List (List Nat)) (token_ids_1 : Option (List (List Nat))) :
    List Nat :=
  match token_ids_1 with
  | none =>
    List.replicate ([t.cls_token_id] ++ token_ids_0 ++ [t.sep_token_id]).length 0
  | some ids1 =>
    List.replicate ([t.cls_token_id] ++ token_ids_0 ++ [t.sep_token_id]).length 0
      ++ List.replicate (ids1 ++ [t.sep_token_id]).length 1

/-- A `max_word_length`-only tokenizer with all token strings left at their
defaults; used for concrete instances in the theorems below. -/
def defTok (mwl : Nat) : Tokenizer := { max_word_length := mwl }

/-! ## The Segmenter (`BasicTokenizer`)

Texts and tokens are lists of Unicode scalar values (`List Char`), mirroring
Python strings.  The segmentation pipeline itself
(`_clean_text`, `_tokenize_chinese_chars`, whitespace splitting, per-token
casing/accent handling, `_run_split_on_punc`) is translated from the source.

The character-classification and normalization primitives it calls are not
part of the two source files: `_is_control`, `_is_whitespace` and
`_is_punctuation` live in `transformers.tokenization_utils`, and
`unicodedata.normalize`, `unicodedata.category` and `str.lower` are Python
standard library.  Modelled from the spec: "drop … Unicode control
characters; replace any Unicode whitespace character with an ASCII space",
"apply Unicode canonical composition normalization (NFC)", "lowercase the
token", "Unicode canonical decomposition (NFD) followed by removal of all
combining marks (category nonspacing mark)", "every character classified as
punctuation".  They are modelled as an oracle of per-character classifiers
and per-character transforms (NFC included, i.e. normalization is modelled
character-wise); theorems about them state explicitly which algebraic
properties of the oracle they assume. -/

/-- The external Unicode collaborators, as per-character classifiers and
transforms.  Modelled from the spec (see the section comment above):
`isControl`/`isWs`/`isPunct` stand for `_is_control`/`_is_whitespace`/
`_is_punctuation`, `isMn` for `unicodedata.category(c) == "Mn"`, `nfcChar`
and `nfdChar` for character-wise canonical normalization, and `lowerChar`
for `str.lower` on one character (which may expand). -/
structure SegOracle where
  isControl : Char → Bool
  isWs : Char → Bool
  isPunct : Char → Bool
  isMn : Char → Bool
  nfcChar : Char → List Char
  lowerChar : Char → List Char
  nfdChar : Char → List Char

/-- Character-wise expansion of a string transform. -/
def concatMap (f : Char → List Char) : List Char → List Char
  | [] => []
  | c :: cs => f c ++ concatMap f cs

/-- Source method `_is_chinese_char`, with the eight closed CJK code-point
intervals written out in the source. -/
def isChineseCp (cp : Nat) : Bool :=
  (0x4E00 ≤ cp && cp ≤ 0x9FFF) || (0x3400 ≤ cp && cp ≤ 0x4DBF)
    || (0x20000 ≤ cp && cp ≤ 0x2A6DF) || (0x2A700 ≤ cp && cp ≤ 0x2B73F)
    || (0x2B740 ≤ cp && cp ≤ 0x2B81F) || (0x2B820 ≤ cp && cp ≤ 0x2CEAF)
    || (0xF900 ≤ cp && cp ≤ 0xFAFF) || (0x2F800 ≤ cp && cp ≤ 0x2FA1F)

/-- Source method `_clean_text`: drop NUL, U+FFFD and control characters,
replace whitespace characters by an ASCII space. -/
def cleanText (O : SegOracle) : List Char → List Char
  | [] => []
  | c :: cs =>
    if c.toNat = 0 || c.toNat = 0xFFFD || O.isControl c then cleanText O cs
    else if O.isWs c then ' ' :: cleanText O cs
    else c :: cleanText O cs

/-- Source method `_tokenize_chinese_chars`: put spaces around every CJK
character. -/
def padChinese : List Char → List Char
  | [] => []
  | c :: cs =>
    if isChineseCp c.toNat then ' ' :: c :: ' ' :: padChinese cs
    else c :: padChinese cs

/-- Splits a string into whitespace-separated segments, keeping the (possibly
empty) segments between consecutive whitespace characters. -/
def splitWsAux (w : Char → Bool) : List Char → List (List Char)
  | [] => [[]]
  | c :: cs =>
    if w c then [] :: splitWsAux w cs
    else
      match splitWsAux w cs with
      | g :: gs => (c :: g) :: gs
      | [] => [[c]]

/-- Source function `whitespace_tokenize` (`text.strip()` followed by
`text.split()`): the maximal non-whitespace runs, i.e. the nonempty
whitespace-separated segments. -/
def wsTokenize (O : SegOracle) (s : List Char) : List (List Char) :=
  (splitWsAux O.isWs s).filter (fun g => !g.isEmpty)

/-- `unicodedata.normalize("NFC", ·)` under the character-wise oracle. -/
def nfcStr (O : SegOracle) (s : List Char) : List Char :=
  concatMap O.nfcChar s

/-- `str.lower` under the character-wise oracle. -/
def lowerStr (O : SegOracle) (s : List Char) : List Char :=
  concatMap O.lowerChar s

/-- Source method `_run_strip_accents`: NFD-decompose, then drop every
combining mark (category `Mn`). -/
def runStripAccents (O : SegOracle) (s : List Char) : List Char :=
  (concatMap O.nfdChar s).filter (fun c => !O.isMn c)

/-- `output[-1].append(char)` on the list of groups built by
`_run_split_on_punc`. -/
def appendToLast (out : List (List Char)) (c : Char) : List (List Char) :=
  match out with
  | [] => [[c]]
  | [g] => [g ++ [c]]
  | g :: gs => g :: appendToLast gs c

/-- The `while i < len(chars)` loop of `_run_split_on_punc`, translated with
its `start_new_word` flag and accumulated `output` groups. -/
def splitPuncLoop (O : SegOracle) :
    List Char → Bool → List (List Char) → List (List Char)
  | [], _, out => out
  | c :: cs, startNewWord, out =>
    if O.isPunct c then splitPuncLoop O cs true (out ++ [[c]])
    else if startNewWord then splitPuncLoop O cs false (out ++ [[c]])
    else splitPuncLoop O cs false (appendToLast out c)

/-- Punctuation-separated segments with punctuation singletons: the
declarative counterpart of `splitPuncLoop`, used to reason about it
(`splitPuncLoop_spec` proves the two agree). -/
def splitPuncAux (p : Char → Bool) : List Char → List (List Char)
  | [] => [[]]
  | c :: cs =>
    if p c then [] :: [c] :: splitPuncAux p cs
    else
      match splitPuncAux p cs with
      | g :: gs => (c :: g) :: gs
      | [] => [[c]]

/-- Configuration of a constructed `BasicTokenizer`. -/
structure BasicTok where
  do_lower_case : Bool := true
  never_split : List (List Char) := []
  tokenize_chinese_chars : Bool := true
  strip_accents : Option Bool := none
  do_split_on_punc : Bool := true

/-- Source method `_run_split_on_punc`: return `[text]` when punctuation
splitting is disabled or the (already processed) token is protected,
otherwise run the splitting loop. -/
def runSplitOnPunc (B : BasicTok) (O : SegOracle) (text : List Char)
    (never_split : List (List Char)) : List (List Char) :=
  if !B.do_split_on_punc || never_split.contains text then [text]
  else splitPuncLoop O text true []

/-- The per-token casing/accent step inside `BasicTokenizer.tokenize`:
protected tokens pass through; otherwise lowercase and/or strip accents
according to `do_lower_case` and `strip_accents` (`None` means "tied to
lowercasing"). -/
def processToken (B : BasicTok) (O : SegOracle)
    (never_split : List (List Char)) (token : List Char) : List Char :=
  if never_split.contains token then token
  else if B.do_lower_case then
    if B.strip_accents ≠ some false then runStripAccents O (lowerStr O token)
    else lowerStr O token
  else if B.strip_accents = some true then runStripAccents O token
  else token

/-- `" ".join(...)`. -/
def joinSep : List (List Char) → List Char
  | [] => []
  | [u] => u
  | u :: us => u ++ ' ' :: joinSep us

/-- `flatMap` over the token list (`split_tokens.extend(...)` in the loop). -/
def concatMapToks (f : List Char → List (List Char)) :
    List (List Char) → List (List Char)
  | [] => []
  | t :: ts => f t ++ concatMapToks f ts

/-- Source method `BasicTokenizer.tokenize`: clean, optionally isolate CJK
characters, NFC-normalize, whitespace-split, per-token casing/accents and
punctuation splitting (with the protected set being the union of the
constructor set and the argument), then re-join and whitespace-split. -/
def BasicTok.tokenize (B : BasicTok) (O : SegOracle) (text : List Char)
    (never_split_arg : List (List Char)) : List (List Char) :=
  let never_split := B.never_split ++ never_split_arg
  let cleaned := cleanText O text
  let padded := if B.tokenize_chinese_chars then padChinese cleaned else cleaned
  let unicode_normalized_text := nfcStr O padded
  let orig_tokens := wsTokenize O unicode_normalized_text
  let split_tokens := concatMapToks
    (fun token => runSplitOnPunc B O (processToken B O never_split token)
      never_split)
    orig_tokens
  wsTokenize O (joinSep split_tokens)

/-- The character-level effect of the casing/accent step on an unprotected
token (`processToken` is `concatMap` of this map; see `processToken_eq`). -/
def procChar (B : BasicTok) (O : SegOracle) (c : Char) : List Char :=
  if B.do_lower_case then
    if B.strip_accents ≠ some false then
      (concatMap O.nfdChar (O.lowerChar c)).filter (fun d => !O.isMn d)
    else O.lowerChar c
  else if B.strip_accents = some true then
    (O.nfdChar c).filter (fun d => !O.isMn d)
  else [c]

/-- A character the cleaning step keeps unchanged: not NUL or U+FFFD, not a
control character, not whitespace. -/
def CleanKeep (O : SegOracle) (c : Char) : Prop :=
  c.toNat ≠ 0 ∧ c.toNat ≠ 0xFFFD ∧ O.isControl c = false ∧ O.isWs c = false

/-- A possible output token of one `tokenize` pass that the second pass must
reproduce verbatim: either protected, or made of characters the casing step
fixes and safe for punctuation re-splitting (splitting disabled, a
one-character token, or no punctuation characters at all). -/
def Stable (B : BasicTok) (O : SegOracle) (ns : List (List Char))
    (u : List Char) : Prop :=
  ns.contains u = true
    ∨ ((∀ c ∈ u, procChar B O c = [c])
        ∧ (B.do_split_on_punc = false ∨ (∃ p, u = [p])
            ∨ ∀ c ∈ u, O.isPunct c = false))

/-- The algebraic assumptions on the Unicode oracle under which segmentation
idempotence is proven.  Each field reflects a fact of the real Unicode
collaborators: the space character is whitespace, not a control character,
and NFC-stable; normalization and the casing/accent map send clean
characters to clean characters; characters already produced by
normalization or by the casing/accent map are fixed points of both; CJK
characters are fixed points and never whitespace; and neither map creates
CJK characters out of non-CJK ones. -/
structure GoodOracle (B : BasicTok) (O : SegOracle) : Prop where
  ws_space : O.isWs ' ' = true
  control_space : O.isControl ' ' = false
  nfc_space : O.nfcChar ' ' = [' ']
  nfc_clean : ∀ c, CleanKeep O c → ∀ c2 ∈ O.nfcChar c, CleanKeep O c2
  proc_clean : ∀ c, CleanKeep O c → ∀ c2 ∈ procChar B O c, CleanKeep O c2
  nfc_fix : ∀ c, CleanKeep O c → ∀ c2 ∈ O.nfcChar c, O.nfcChar c2 = [c2]
  proc_fix : ∀ c, CleanKeep O c → ∀ c2 ∈ procChar B O c,
    O.nfcChar c2 = [c2] ∧ procChar B O c2 = [c2]
  cjk_fix : ∀ c, isChineseCp c.toNat = true →
    O.nfcChar c = [c] ∧ procChar B O c = [c]
  cjk_not_ws : ∀ c, isChineseCp c.toNat = true → O.isWs c = false
  nfc_nocjk : ∀ c, CleanKeep O c → isChineseCp c.toNat = false →
    ∀ c2 ∈ O.nfcChar c, isChineseCp c2.toNat = false
  proc_nocjk : ∀ c, CleanKeep O c → isChineseCp c.toNat = false →
    ∀ c2 ∈ procChar B O c, isChineseCp c2.toNat = false

/-- A concrete oracle instance for the ASCII fragment: only the space
character is whitespace, `.` is the punctuation class, there are no control
characters or combining marks in play, and the normalization and casing maps
are trivial on this fragment. -/
def segO : SegOracle where
  isControl := fun _ => false
  isWs := fun c => c == ' '
  isPunct := fun c => c == '.'
  isMn := fun _ => false
  nfcChar := fun c => [c]
  lowerChar := fun c => [c]
  nfdChar := fun c => [c]

/-- A `BasicTokenizer` with all constructor defaults. -/
def segB : BasicTok := {}

/-- A concrete input exercising punctuation splitting and CJK isolation. -/
def segText : List Char := "ab.cd 中 x".data

end CharacterBert

namespace CharacterBert

/-! ## Byte-encoder lemmas -/

theorem setFrom_length (bs ids : List Nat) (k : Nat) :
    (setFrom ids k bs).length = ids.length := by
  induction bs generalizing ids k with
  | nil => rfl
  | cons b bs ih => simp [setFrom, ih]

theorem setFrom_cons_succ (bs : List Nat) (a : Nat) (l : List Nat) (k : Nat) :
    setFrom (a :: l) (k + 1) bs = a :: setFrom l k bs := by
  induction bs generalizing l k with
  | nil => rfl
  | cons b bs ih =>
    simp only [setFrom, List.set_cons_succ]
    exact ih (l.set k b) (k + 1)

theorem setFrom_zero (bs l : List Nat) (h : bs.length ≤ l.length) :
    setFrom l 0 bs = bs ++ l.drop bs.length := by
  induction bs generalizing l with
  | nil => simp [setFrom]
  | cons b bs ih =>
    cases l with
    | nil => simp at h
    | cons x l =>
      simp only [setFrom, List.set_cons_zero, setFrom_cons_succ]
      rw [ih l (by simpa using h)]
      simp

theorem mem_setFrom (bs ids : List Nat) (k : Nat) {x : Nat}
    (hx : x ∈ setFrom ids k bs) : x ∈ ids ∨ x ∈ bs := by
  induction bs generalizing ids k with
  | nil => exact Or.inl hx
  | cons b bs ih =>
    simp only [setFrom] at hx
    rcases ih _ _ hx with h | h
    · rcases List.mem_or_eq_of_mem_set h with h | h
      · exact Or.inl h
      · exact Or.inr (by simp [h])
    · exact Or.inr (List.mem_cons_of_mem _ h)

theorem replicate_add_three (a : Nat) (m : Nat) :
    List.replicate (m + 3) a = a :: a :: a :: List.replicate m a := rfl

/-- Frame shape of the ordinary-token array before the shift: writing the
bytes and the EOW marker into the padded BOW-prefixed array yields
`BOW :: bytes ++ EOW :: padding`. -/
theorem frame_eq (m : Nat) (tb : List Nat) (hlen : tb.length ≤ m + 1) :
    ((setFrom ((List.replicate (m + 3) PAD_CHARACTER_ID).set 0 bow_character_id)
          1 tb).set (tb.length + 1) eow_character_id)
      = bow_character_id :: tb
          ++ eow_character_id
            :: List.replicate (m + 1 - tb.length) PAD_CHARACTER_ID := by
  have h1 : List.replicate (m + 3) PAD_CHARACTER_ID
      = PAD_CHARACTER_ID :: List.replicate (m + 2) PAD_CHARACTER_ID := rfl
  rw [h1, List.set_cons_zero, setFrom_cons_succ,
    setFrom_zero _ _ (by simp; omega), List.drop_replicate, List.set_cons_succ,
    List.set_append]
  rw [if_neg (lt_irrefl _), Nat.sub_self]
  have h2 : m + 2 - tb.length = (m + 1 - tb.length) + 1 := by omega
  rw [h2, List.replicate_succ, List.set_cons_zero]
  simp

theorem ordinary_preshift_eq (mwl : Nat) (token : String) (h : 3 ≤ mwl) :
    ordinary_preshift mwl token
      = bow_character_id :: (utf8Encode token.data).take (mwl - 2)
          ++ eow_character_id
            :: List.replicate
                (mwl - 2 - ((utf8Encode token.data).take (mwl - 2)).length)
                PAD_CHARACTER_ID := by
  obtain ⟨m, rfl⟩ : ∃ m, mwl = m + 3 := ⟨mwl - 3, by omega⟩
  have hm2 : m + 3 - 2 = m + 1 := by omega
  simp only [ordinary_preshift, hm2]
  exact frame_eq m _ (List.length_take_le _ _)

theorem special_token_character_ids_eq (index mwl : Nat) (h : 3 ≤ mwl) :
    special_token_character_ids index bow_character_id eow_character_id
        PAD_CHARACTER_ID mwl
      = 259 :: (index + 1) :: 260 :: List.replicate (mwl - 3) 261 := by
  obtain ⟨m, rfl⟩ : ∃ m, mwl = m + 3 := ⟨mwl - 3, by omega⟩
  simp [special_token_character_ids, replicate_add_three, List.set_cons_zero,
    List.set_cons_succ, List.map_replicate, bow_character_id, eow_character_id,
    PAD_CHARACTER_ID]

theorem special_token_character_ids_length (index bow eow pad mwl : Nat) :
    (special_token_character_ids index bow eow pad mwl).length = mwl := by
  simp [special_token_character_ids]

theorem ordinary_preshift_length (mwl : Nat) (token : String) :
    (ordinary_preshift mwl token).length = mwl := by
  simp [ordinary_preshift, setFrom_length]

theorem utf8EncodeChar_lt_256 (c : Char) : ∀ b ∈ utf8EncodeChar c, b < 256 := by
  intro b hb
  have hc : c.toNat < 0x110000 := by
    rcases c.valid with h | h
    · have h55 : c.val.toNat < 55296 := h
      unfold Char.toNat
      omega
    · exact h.2
  simp only [utf8EncodeChar] at hb
  split at hb
  · simp only [List.mem_singleton] at hb
    omega
  · split at hb
    · have hd : c.toNat / 0x40 ≤ 0x7FF / 0x40 := Nat.div_le_div_right (by omega)
      have hm : c.toNat % 0x40 < 0x40 := Nat.mod_lt _ (by omega)
      norm_num at hd
      simp only [List.mem_cons, List.not_mem_nil, or_false] at hb
      rcases hb with rfl | rfl <;> omega
    · split at hb
      · have hd : c.toNat / 0x1000 ≤ 0xFFFF / 0x1000 :=
          Nat.div_le_div_right (by omega)
        have hm1 : (c.toNat / 0x40) % 0x40 < 0x40 := Nat.mod_lt _ (by omega)
        have hm2 : c.toNat % 0x40 < 0x40 := Nat.mod_lt _ (by omega)
        norm_num at hd
        simp only [List.mem_cons, List.not_mem_nil, or_false] at hb
        rcases hb with rfl | rfl | rfl <;> omega
      · have hd : c.toNat / 0x40000 ≤ 0x10FFFF / 0x40000 :=
          Nat.div_le_div_right (by omega)
        have hm1 : (c.toNat / 0x1000) % 0x40 < 0x40 := Nat.mod_lt _ (by omega)
        have hm2 : (c.toNat / 0x40) % 0x40 < 0x40 := Nat.mod_lt _ (by omega)
        have hm3 : c.toNat % 0x40 < 0x40 := Nat.mod_lt _ (by omega)
        norm_num at hd
        simp only [List.mem_cons, List.not_mem_nil, or_false] at hb
        rcases hb with rfl | rfl | rfl | rfl <;> omega

theorem utf8Encode_lt_256 (s : List Char) : ∀ b ∈ utf8Encode s, b < 256 := by
  induction s with
  | nil => simp [utf8Encode]
  | cons c cs ih =>
    intro b hb
    simp only [utf8Encode, List.mem_append] at hb
    rcases hb with hb | hb
    · exact utf8EncodeChar_lt_256 c b hb
    · exact ih b hb

theorem utf8Encode_ascii (s : List Char) (h : ∀ c ∈ s, c.toNat < 128) :
    utf8Encode s = s.map Char.toNat := by
  induction s with
  | nil => rfl
  | cons c cs ih =>
    have hc : c.toNat < 128 := h c (by simp)
    simp only [utf8Encode, List.map]
    rw [ih (fun d hd => h d (by simp [hd]))]
    simp [utf8EncodeChar, hc]

theorem special_range (index bow eow pad mwl : Nat)
    (hi : index ≤ 261) (hb : bow ≤ 261) (he : eow ≤ 261) (hp : pad ≤ 261) :
    ∀ x ∈ special_token_character_ids index bow eow pad mwl, x ≤ 262 := by
  intro x hx
  simp only [special_token_character_ids, List.mem_map] at hx
  obtain ⟨y, hy, rfl⟩ := hx
  rcases List.mem_or_eq_of_mem_set hy with hy | rfl
  · rcases List.mem_or_eq_of_mem_set hy with hy | rfl
    · rcases List.mem_or_eq_of_mem_set hy with hy | rfl
      · have := List.eq_of_mem_replicate hy
        omega
      · omega
    · omega
  · omega

theorem ordinary_preshift_le (mwl : Nat) (token : String) :
    ∀ x ∈ ordinary_preshift mwl token, x ≤ 260 := by
  intro x hx
  simp only [ordinary_preshift] at hx
  rcases List.mem_or_eq_of_mem_set hx with hx | rfl
  · rcases mem_setFrom _ _ _ hx with hx | hx
    · rcases List.mem_or_eq_of_mem_set hx with hx | rfl
      · have h260 := List.eq_of_mem_replicate hx
        subst h260
        decide
      · decide
    · have hsub := List.take_subset _ _ hx
      have := utf8Encode_lt_256 token.data x hsub
      omega
  · decide

end CharacterBert

namespace CharacterBert

/-! ## Claim theorems: byte encoder / decoder, MLM lookups, assembly -/

/-- C1 (code bug, failing input): the decoder's length check is inverted.
`_convert_id_to_token` contains `assert len(character_ids) !=
self.max_word_length`, which raises `AssertionError` exactly when the input
has the correct length.  With `max_word_length = 3`, the length-3 input
`[260, 105, 261]` fails the check, while the length-2 input `[106, 107]`
sails past it and is happily decoded to `"ij"` — the converse of the claimed
"fails iff the length differs" contract. -/
theorem C1_length_check_inverted :
    Tokenizer.convert_id_to_token (defTok 3) [260, 105, 261]
        = .error .lengthAssert
      ∧ Tokenizer.convert_id_to_token (defTok 3) [106, 107] = .ok "ij" :=
  ⟨by rfl, by rfl⟩

/-- C2 (code bug, failing input): decoding the precomputed array that encode
returns for each special tag does not yield the tag back.  With
`max_word_length = 3` all four of `decode(encode(tag))` abort with the
inverted length assert (and even past that check, the source compares the
1-subtracted array against the *shifted* stored special arrays, which can
never match). -/
theorem C2_special_roundtrip_fails :
    Tokenizer.convert_id_to_token (defTok 3)
        ((Tokenizer.convert_token_to_id (defTok 3) "[CLS]").map
          (fun n => (n : Int))) = .error .lengthAssert
      ∧ Tokenizer.convert_id_to_token (defTok 3)
          ((Tokenizer.convert_token_to_id (defTok 3) "[SEP]").map
            (fun n => (n : Int))) = .error .lengthAssert
      ∧ Tokenizer.convert_id_to_token (defTok 3)
          ((Tokenizer.convert_token_to_id (defTok 3) "[MASK]").map
            (fun n => (n : Int))) = .error .lengthAssert
      ∧ Tokenizer.convert_id_to_token (defTok 3)
          ((Tokenizer.convert_token_to_id (defTok 3) "[PAD]").map
            (fun n => (n : Int))) = .error .lengthAssert :=
  ⟨by rfl, by rfl, by rfl, by rfl⟩

/-- C3 (code bug, failing input): the ordinary round trip
`decode(encode(s)) == s` is blocked for every string by the same inverted
length assert: `encode` always returns a `max_word_length`-long array, which
is exactly what the decoder's assert rejects.  Shown here for `s = "hi"`
with `max_word_length = 8`. -/
theorem C3_roundtrip_blocked_by_assert :
    Tokenizer.convert_id_to_token (defTok 8)
        ((Tokenizer.convert_token_to_id (defTok 8) "hi").map
          (fun n => (n : Int))) = .error .lengthAssert :=
  by rfl

/-- C4 (counterexample): the MASK special array contains the entry
`261 + 1 = 262`, violating the claimed range `[0, 261]`. -/
theorem C4_mask_entry_exceeds_261 :
    262 ∈ Tokenizer.convert_token_to_id (defTok 3) "[MASK]" ∧ ¬(262 ≤ 261) := by
  decide

/-- C4 (amended): for every input token, special or ordinary, the encoding
has length exactly `max_word_length` and all entries lie in `[0, 262]`
(the MASK array's marker entry is `262`; every other entry is at most
`261`). -/
theorem C4_encode_length_and_range (t : Tokenizer) (token : String)
    (h : 3 ≤ t.max_word_length) :
    (t.convert_token_to_id token).length = t.max_word_length
      ∧ ∀ x ∈ t.convert_token_to_id token, x ≤ 262 := by
  unfold Tokenizer.convert_token_to_id Tokenizer.cls_character_ids
    Tokenizer.sep_character_ids Tokenizer.mask_character_ids
    Tokenizer.pad_character_ids
  split_ifs
  · exact ⟨special_token_character_ids_length _ _ _ _ _,
      special_range _ _ _ _ _ (by decide) (by decide) (by decide) (by decide)⟩
  · exact ⟨special_token_character_ids_length _ _ _ _ _,
      special_range _ _ _ _ _ (by decide) (by decide) (by decide) (by decide)⟩
  · exact ⟨special_token_character_ids_length _ _ _ _ _,
      special_range _ _ _ _ _ (by decide) (by decide) (by decide) (by decide)⟩
  · refine ⟨by simp, ?_⟩
    intro x hx
    have := List.eq_of_mem_replicate hx
    omega
  · refine ⟨by simp [ordinary_preshift_length], ?_⟩
    intro x hx
    simp only [List.mem_map] at hx
    obtain ⟨y, hy, rfl⟩ := hx
    have := ordinary_preshift_le _ _ y hy
    omega

/-- C4 witness: the amended statement at `max_word_length = 3`,
token `"hi"`. -/
theorem C4_encode_length_and_range_witness :
    3 ≤ (defTok 3).max_word_length
      ∧ ((Tokenizer.convert_token_to_id (defTok 3) "hi").length
            = (defTok 3).max_word_length
          ∧ ∀ x ∈ Tokenizer.convert_token_to_id (defTok 3) "hi", x ≤ 262) :=
  ⟨by decide, C4_encode_length_and_range (defTok 3) "hi" (by decide)⟩

/-- C5 (confirmed): the concrete scenario, `max_word_length = 8`, token
`"hi"`: UTF-8 bytes `[104, 105]`, pre-shift array
`[258, 104, 105, 259, 260, 260, 260, 260]`, final shifted array
`[259, 105, 106, 260, 261, 261, 261, 261]`. -/
theorem C5_concrete_scenario_hi :
    utf8Encode "hi".data = [104, 105]
      ∧ ordinary_preshift 8 "hi" = [258, 104, 105, 259, 260, 260, 260, 260]
      ∧ Tokenizer.convert_token_to_id (defTok 8) "hi"
          = [259, 105, 106, 260, 261, 261, 261, 261] :=
  ⟨by decide, by decide, by decide⟩

end CharacterBert

namespace CharacterBert

/-- C6 (confirmed): the four special arrays are pairwise distinct, and the
encoding of any ordinary ASCII token (one that is none of the configured
special-token strings, with all characters below code point 128) differs
from all four of them. -/
theorem C6_disjointness (t : Tokenizer) (token : String)
    (h : 3 ≤ t.max_word_length)
    (hascii : ∀ c ∈ token.data, c.toNat < 128)
    (hc : token ≠ t.cls_token) (hs : token ≠ t.sep_token)
    (hm : token ≠ t.mask_token) (hp : token ≠ t.pad_token) :
    (t.cls_character_ids ≠ t.sep_character_ids
      ∧ t.cls_character_ids ≠ t.mask_character_ids
      ∧ t.cls_character_ids ≠ t.pad_character_ids
      ∧ t.sep_character_ids ≠ t.mask_character_ids
      ∧ t.sep_character_ids ≠ t.pad_character_ids
      ∧ t.mask_character_ids ≠ t.pad_character_ids)
    ∧ (t.convert_token_to_id token ≠ t.cls_character_ids
      ∧ t.convert_token_to_id token ≠ t.sep_character_ids
      ∧ t.convert_token_to_id token ≠ t.mask_character_ids
      ∧ t.convert_token_to_id token ≠ t.pad_character_ids) := by
  have hcls : t.cls_character_ids
      = 259 :: 257 :: 260 :: List.replicate (t.max_word_length - 3) 261 := by
    rw [Tokenizer.cls_character_ids, special_token_character_ids_eq _ _ h]
  have hsep : t.sep_character_ids
      = 259 :: 258 :: 260 :: List.replicate (t.max_word_length - 3) 261 := by
    rw [Tokenizer.sep_character_ids, special_token_character_ids_eq _ _ h]
  have hmask : t.mask_character_ids
      = 259 :: 262 :: 260 :: List.replicate (t.max_word_length - 3) 261 := by
    rw [Tokenizer.mask_character_ids, special_token_character_ids_eq _ _ h]
  have hpadeq : t.pad_character_ids
      = 0 :: List.replicate (t.max_word_length - 1) 0 := by
    obtain ⟨m, hm3⟩ : ∃ m, t.max_word_length = m + 3 :=
      ⟨t.max_word_length - 3, by omega⟩
    rw [Tokenizer.pad_character_ids, hm3]
    rfl
  have hb128 : ∀ b ∈ (utf8Encode token.data).take (t.max_word_length - 2),
      b < 128 := by
    intro b hbmem
    have hmem := List.take_subset _ _ hbmem
    rw [utf8Encode_ascii token.data hascii] at hmem
    simp only [List.mem_map] at hmem
    obtain ⟨c, hcmem, rfl⟩ := hmem
    exact hascii c hcmem
  have hord : t.convert_token_to_id token
      = 259 :: (((utf8Encode token.data).take (t.max_word_length - 2)).map
            (fun i => i + 1)
          ++ 260 :: List.replicate
              (t.max_word_length - 2
                - ((utf8Encode token.data).take (t.max_word_length - 2)).length)
              261) := by
    unfold Tokenizer.convert_token_to_id
    rw [if_neg hc, if_neg hs, if_neg hm, if_neg hp, ordinary_preshift_eq _ _ h]
    simp [bow_character_id, eow_character_id, PAD_CHARACTER_ID,
      List.map_replicate]
  rw [hcls, hsep, hmask, hpadeq, hord]
  refine ⟨⟨by simp, by simp, by simp, by simp, by simp, by simp⟩,
    ?_, ?_, ?_, ?_⟩
  · cases htb : (utf8Encode token.data).take (t.max_word_length - 2) with
    | nil => simp
    | cons b tbr =>
      have hblt : b < 128 := hb128 b (by rw [htb]; exact List.mem_cons_self _ _)
      intro he
      simp only [List.map_cons, List.cons_append, List.cons.injEq] at he
      omega
  · cases htb : (utf8Encode token.data).take (t.max_word_length - 2) with
    | nil => simp
    | cons b tbr =>
      have hblt : b < 128 := hb128 b (by rw [htb]; exact List.mem_cons_self _ _)
      intro he
      simp only [List.map_cons, List.cons_append, List.cons.injEq] at he
      omega
  · cases htb : (utf8Encode token.data).take (t.max_word_length - 2) with
    | nil => simp
    | cons b tbr =>
      have hblt : b < 128 := hb128 b (by rw [htb]; exact List.mem_cons_self _ _)
      intro he
      simp only [List.map_cons, List.cons_append, List.cons.injEq] at he
      omega
  · simp

/-- C6 witness: the concrete instance `max_word_length = 3`, token `"a"`. -/
theorem C6_disjointness_witness :
    Tokenizer.convert_token_to_id (defTok 3) "a"
        ≠ Tokenizer.cls_character_ids (defTok 3)
      ∧ Tokenizer.cls_character_ids (defTok 3)
        ≠ Tokenizer.sep_character_ids (defTok 3) :=
  ⟨(C6_disjointness (defTok 3) "a" (by decide) (by decide) (by decide)
      (by decide) (by decide) (by decide)).2.1,
    (C6_disjointness (defTok 3) "a" (by decide) (by decide) (by decide)
      (by decide) (by decide) (by decide)).1.1⟩

/-- C7 (confirmed): for every pair of encoded sequences, the special-tokens
mask and the token-type ids have exactly the length of the assembled input:
`len(a) + 2` for a single sequence, `len(a) + len(b) + 3` for a pair. -/
theorem C7_assembly_length_invariant (t : Tokenizer) (a b : List (List Nat)) :
    (t.get_special_tokens_mask a none).length
        = (t.build_inputs_with_special_tokens a none).length
      ∧ (t.create_token_type_ids_from_sequences a none).length
          = (t.build_inputs_with_special_tokens a none).length
      ∧ (t.build_inputs_with_special_tokens a none).length = a.length + 2
      ∧ (t.get_special_tokens_mask a (some b)).length
          = (t.build_inputs_with_special_tokens a (some b)).length
      ∧ (t.create_token_type_ids_from_sequences a (some b)).length
          = (t.build_inputs_with_special_tokens a (some b)).length
      ∧ (t.build_inputs_with_special_tokens a (some b)).length
          = a.length + b.length + 3 := by
  refine ⟨?_, ?_, ?_, ?_, ?_, ?_⟩ <;>
    simp [Tokenizer.get_special_tokens_mask,
      Tokenizer.build_inputs_with_special_tokens,
      Tokenizer.create_token_type_ids_from_sequences] <;>
    omega

/-- C9 (confirmed): encoding the empty string as an ordinary token succeeds
and yields BOW identity, EOW identity, then PAD-CHARACTER identities, all
shifted by one: `[259, 260, 261, 261, ...]` of length `max_word_length`. -/
theorem C9_encode_empty_token (mwl : Nat) (h : 3 ≤ mwl) :
    Tokenizer.convert_token_to_id (defTok mwl) ""
      = 259 :: 260 :: List.replicate (mwl - 2) 261 := by
  have p1 : (defTok mwl).cls_token = "[CLS]" := rfl
  have p2 : (defTok mwl).sep_token = "[SEP]" := rfl
  have p3 : (defTok mwl).mask_token = "[MASK]" := rfl
  have p4 : (defTok mwl).pad_token = "[PAD]" := rfl
  have e1 : ("" : String) ≠ (defTok mwl).cls_token := by rw [p1]; decide
  have e2 : ("" : String) ≠ (defTok mwl).sep_token := by rw [p2]; decide
  have e3 : ("" : String) ≠ (defTok mwl).mask_token := by rw [p3]; decide
  have e4 : ("" : String) ≠ (defTok mwl).pad_token := by rw [p4]; decide
  have hproj : (defTok mwl).max_word_length = mwl := rfl
  unfold Tokenizer.convert_token_to_id
  rw [if_neg e1, if_neg e2, if_neg e3, if_neg e4, hproj,
    ordinary_preshift_eq _ _ h]
  have hempty : utf8Encode ("" : String).data = [] := rfl
  rw [hempty]
  simp [bow_character_id, eow_character_id, PAD_CHARACTER_ID,
    List.map_replicate]

/-- C9 witness: the statement at `max_word_length = 8`. -/
theorem C9_encode_empty_token_witness :
    3 ≤ 8
      ∧ Tokenizer.convert_token_to_id (defTok 8) ""
        = 259 :: 260 :: List.replicate 6 261 :=
  ⟨by omega, by simpa using C9_encode_empty_token 8 (by omega)⟩

/-- C10 (confirmed): MLM vocabulary lookups never raise.  A token absent from
the vocabulary maps to the id of the unknown token; if the unknown token is
itself absent (for instance when no MLM vocabulary file was given), the
result is `None`.  An index absent from the reverse mapping maps to the
unknown-token string. -/
theorem C10_mlm_lookups_total (t : Tokenizer) (token : String) (index : Nat)
    (htok : vocabGet t.mlm_vocab token = none)
    (hidx : assocGet t.mlm_ids_to_tokens index = none) :
    t.convert_mlm_token_to_id token = vocabGet t.mlm_vocab t.unk_token
      ∧ (vocabGet t.mlm_vocab t.unk_token = none
          → t.convert_mlm_token_to_id token = none)
      ∧ t.convert_mlm_id_to_token index = t.unk_token := by
  unfold Tokenizer.convert_mlm_token_to_id Tokenizer.convert_mlm_id_to_token
  rw [htok, hidx]
  exact ⟨rfl, fun h2 => h2, rfl⟩

/-- C10 witness: vocabulary `{"a": 0}`, unknown token `"[UNK]"` absent,
token `"b"` and index `5` both unmapped. -/
theorem C10_mlm_lookups_total_witness :
    Tokenizer.convert_mlm_token_to_id { mlm_vocab := [("a", 0)] } "b"
        = vocabGet [("a", 0)] "[UNK]"
      ∧ (vocabGet [("a", 0)] "[UNK]" = none
          → Tokenizer.convert_mlm_token_to_id { mlm_vocab := [("a", 0)] } "b"
            = none)
      ∧ Tokenizer.convert_mlm_id_to_token { mlm_vocab := [("a", 0)] } 5
        = "[UNK]" :=
  C10_mlm_lookups_total { mlm_vocab := [("a", 0)] } "b" 5 (by rfl) (by rfl)

end CharacterBert

namespace CharacterBert

/-! ## Segmenter lemmas: character-wise maps and whitespace splitting -/

theorem concatMap_append (f : Char → List Char) (a b : List Char) :
    concatMap f (a ++ b) = concatMap f a ++ concatMap f b := by
  induction a with
  | nil => rfl
  | cons c a ih => simp [concatMap, ih]

theorem mem_concatMap {f : Char → List Char} {s : List Char} {d : Char}
    (hd : d ∈ concatMap f s) : ∃ c ∈ s, d ∈ f c := by
  induction s with
  | nil => simp [concatMap] at hd
  | cons c cs ih =>
    simp only [concatMap, List.mem_append] at hd
    rcases hd with hd | hd
    · exact ⟨c, by simp, hd⟩
    · obtain ⟨e, he, hde⟩ := ih hd
      exact ⟨e, by simp [he], hde⟩

theorem concatMap_fixed {f : Char → List Char} {s : List Char}
    (h : ∀ c ∈ s, f c = [c]) : concatMap f s = s := by
  induction s with
  | nil => rfl
  | cons c cs ih =>
    simp only [concatMap]
    rw [h c (by simp), ih (fun d hd => h d (by simp [hd]))]
    rfl

theorem concatMap_concatMap (f g : Char → List Char) (s : List Char) :
    concatMap g (concatMap f s)
      = concatMap (fun c => concatMap g (f c)) s := by
  induction s with
  | nil => rfl
  | cons c cs ih => simp [concatMap, concatMap_append, ih]

theorem filter_concatMap (q : Char → Bool) (f : Char → List Char)
    (s : List Char) :
    (concatMap f s).filter q = concatMap (fun c => (f c).filter q) s := by
  induction s with
  | nil => rfl
  | cons c cs ih => simp [concatMap, List.filter_append, ih]

theorem splitWsAux_ne_nil (w : Char → Bool) (s : List Char) :
    splitWsAux w s ≠ [] := by
  induction s with
  | nil => simp [splitWsAux]
  | cons c cs ih =>
    obtain ⟨g, gs, hg⟩ : ∃ g gs, splitWsAux w cs = g :: gs := by
      cases h : splitWsAux w cs with
      | nil => exact absurd h ih
      | cons g gs => exact ⟨g, gs, rfl⟩
    cases hw : w c <;> simp [splitWsAux, hw, hg]

theorem splitWsAux_shape (w : Char → Bool) (s : List Char) :
    ∃ gs, splitWsAux w s = s.takeWhile (fun d => !w d) :: gs := by
  induction s with
  | nil => exact ⟨[], by simp [splitWsAux]⟩
  | cons c cs ih =>
    obtain ⟨gs, hgs⟩ := ih
    cases hw : w c
    · exact ⟨gs, by simp [splitWsAux, hw, hgs, List.takeWhile_cons]⟩
    · exact ⟨splitWsAux w cs, by simp [splitWsAux, hw, List.takeWhile_cons]⟩

theorem splitWsAux_append (w : Char → Bool) (a b : List Char) (c : Char)
    (hc : w c = true) :
    splitWsAux w (a ++ c :: b) = splitWsAux w a ++ splitWsAux w b := by
  induction a with
  | nil => simp [splitWsAux, hc]
  | cons x a ih =>
    cases hw : w x
    · obtain ⟨ga, gsa, hga⟩ : ∃ g gs, splitWsAux w a = g :: gs := by
        cases h : splitWsAux w a with
        | nil => exact absurd h (splitWsAux_ne_nil w a)
        | cons g gs => exact ⟨g, gs, rfl⟩
      simp [splitWsAux, hw, ih, hga]
    · simp [splitWsAux, hw, ih]

theorem splitWsAux_chars (w : Char → Bool) (s : List Char) :
    ∀ g ∈ splitWsAux w s, ∀ c ∈ g, w c = false ∧ c ∈ s := by
  induction s with
  | nil =>
    intro g hg c hcg
    simp only [splitWsAux, List.mem_singleton] at hg
    subst hg
    simp at hcg
  | cons x cs ih =>
    intro g hg c hcg
    cases hw : w x
    · obtain ⟨g0, gs, hg0⟩ : ∃ g0 gs, splitWsAux w cs = g0 :: gs := by
        cases h : splitWsAux w cs with
        | nil => exact absurd h (splitWsAux_ne_nil w cs)
        | cons g0 gs => exact ⟨g0, gs, rfl⟩
      simp only [splitWsAux, hw, Bool.false_eq_true, if_false, hg0,
        List.mem_cons] at hg
      rcases hg with rfl | hgmem
      · rcases List.mem_cons.1 hcg with rfl | hcg0
        · exact ⟨hw, by simp⟩
        · have hres := ih g0 (by simp [hg0]) c hcg0
          exact ⟨hres.1, by simp [hres.2]⟩
      · have hres := ih g (by simp [hg0, hgmem]) c hcg
        exact ⟨hres.1, by simp [hres.2]⟩
    · simp only [splitWsAux, hw, if_true] at hg
      rcases List.mem_cons.1 hg with rfl | hgmem
      · simp at hcg
      · have hres := ih g hgmem c hcg
        exact ⟨hres.1, by simp [hres.2]⟩

theorem splitWsAux_nows (w : Char → Bool) (u : List Char)
    (h : ∀ c ∈ u, w c = false) : splitWsAux w u = [u] := by
  induction u with
  | nil => rfl
  | cons c cs ih =>
    have hc : w c = false := h c (by simp)
    simp [splitWsAux, hc, ih (fun d hd => h d (by simp [hd]))]

theorem wsTokenize_append (O : SegOracle) (a b : List Char) (c : Char)
    (hc : O.isWs c = true) :
    wsTokenize O (a ++ c :: b) = wsTokenize O a ++ wsTokenize O b := by
  unfold wsTokenize
  rw [splitWsAux_append _ _ _ _ hc, List.filter_append]

theorem wsTokenize_nows (O : SegOracle) (u : List Char) (hne : u ≠ [])
    (h : ∀ c ∈ u, O.isWs c = false) : wsTokenize O u = [u] := by
  unfold wsTokenize
  rw [splitWsAux_nows _ _ h]
  simp [hne]

theorem wsTokenize_tokens (O : SegOracle) (s : List Char) :
    ∀ u ∈ wsTokenize O s, u ≠ [] ∧ ∀ c ∈ u, O.isWs c = false ∧ c ∈ s := by
  intro u hu
  unfold wsTokenize at hu
  rw [List.mem_filter] at hu
  refine ⟨by simpa using hu.2, ?_⟩
  exact splitWsAux_chars O.isWs s u hu.1

theorem wsTokenize_joinSep (O : SegOracle) (l : List (List Char))
    (h1 : O.isWs ' ' = true)
    (h : ∀ u ∈ l, ∀ c ∈ u, O.isWs c = false) :
    wsTokenize O (joinSep l) = l.filter (fun u => !u.isEmpty) := by
  induction l with
  | nil => rfl
  | cons u us ih =>
    cases us with
    | nil =>
      by_cases hu : u = []
      · subst hu; rfl
      · show wsTokenize O u = _
        rw [wsTokenize_nows O u hu (h u (by simp))]
        simp [hu]
    | cons v vs =>
      have hjoin : joinSep (u :: v :: vs) = u ++ ' ' :: joinSep (v :: vs) := rfl
      rw [hjoin, wsTokenize_append O u _ ' ' h1,
        ih (fun x hx c hc => h x (by simp [hx]) c hc)]
      by_cases hu : u = []
      · subst hu
        simp [wsTokenize, splitWsAux]
      · rw [wsTokenize_nows O u hu (h u (by simp))]
        simp [hu]

end CharacterBert

namespace CharacterBert

/-! ## Segmenter lemmas: punctuation splitting -/

theorem appendToLast_append (out : List (List Char)) (g : List Char)
    (c : Char) : appendToLast (out ++ [g]) c = out ++ [g ++ [c]] := by
  induction out with
  | nil => rfl
  | cons x t ih =>
    cases t with
    | nil => rfl
    | cons y t2 =>
      show x :: appendToLast ((y :: t2) ++ [g]) c = x :: ((y :: t2) ++ [g ++ [c]])
      rw [ih]

theorem splitPuncAux_ne_nil (p : Char → Bool) (s : List Char) :
    splitPuncAux p s ≠ [] := by
  induction s with
  | nil => simp [splitPuncAux]
  | cons c cs ih =>
    obtain ⟨g, gs, hg⟩ : ∃ g gs, splitPuncAux p cs = g :: gs := by
      cases h : splitPuncAux p cs with
      | nil => exact absurd h ih
      | cons g gs => exact ⟨g, gs, rfl⟩
    cases hp : p c <;> simp [splitPuncAux, hp, hg]

theorem splitPuncLoop_spec (O : SegOracle) (cs : List Char) :
    (∀ out, splitPuncLoop O cs true out
        = out ++ (splitPuncAux O.isPunct cs).filter (fun g => !g.isEmpty))
    ∧ ∀ out g h t, g ≠ [] → splitPuncAux O.isPunct cs = h :: t →
        splitPuncLoop O cs false (out ++ [g])
          = out ++ (g ++ h) :: t.filter (fun x => !x.isEmpty) := by
  induction cs with
  | nil =>
    constructor
    · intro out
      simp [splitPuncLoop, splitPuncAux]
    · intro out g h t hg hsh
      simp only [splitPuncAux] at hsh
      injection hsh with hsh1 hsh2
      subst hsh1
      subst hsh2
      simp [splitPuncLoop]
  | cons c cs ih =>
    obtain ⟨ih1, ih2⟩ := ih
    obtain ⟨h0, t0, hsh0⟩ : ∃ h0 t0, splitPuncAux O.isPunct cs = h0 :: t0 := by
      cases h : splitPuncAux O.isPunct cs with
      | nil => exact absurd h (splitPuncAux_ne_nil _ cs)
      | cons g gs => exact ⟨g, gs, rfl⟩
    constructor
    · intro out
      by_cases hp : O.isPunct c = true
      · simp only [splitPuncLoop, hp, if_true]
        rw [ih1]
        simp [splitPuncAux, hp]
      · have hp' : O.isPunct c = false := by simpa using hp
        simp only [splitPuncLoop, hp', Bool.false_eq_true, if_false, if_true]
        rw [ih2 out [c] h0 t0 (by simp) hsh0]
        simp [splitPuncAux, hp', hsh0]
    · intro out g h t hg hsh
      by_cases hp : O.isPunct c = true
      · simp only [splitPuncAux, hp, if_true] at hsh
        injection hsh with hsh1 hsh2
        subst hsh1
        subst hsh2
        simp only [splitPuncLoop, hp, if_true]
        rw [show (out ++ [g]) ++ [[c]] = out ++ [g] ++ [[c]] from rfl, ih1]
        simp
      · have hp' : O.isPunct c = false := by simpa using hp
        simp only [splitPuncAux, hp', Bool.false_eq_true, if_false,
          hsh0] at hsh
        injection hsh with hsh1 hsh2
        subst hsh1
        subst hsh2
        simp only [splitPuncLoop, hp', Bool.false_eq_true, if_false]
        rw [appendToLast_append, ih2 out (g ++ [c]) h0 t0 (by simp) hsh0]
        simp

theorem splitPuncAux_good (p : Char → Bool) (s : List Char) :
    (∃ h t, splitPuncAux p s = h :: t ∧ ∀ c ∈ h, p c = false)
      ∧ ∀ g ∈ splitPuncAux p s, (∀ c ∈ g, c ∈ s)
          ∧ ((∃ q, g = [q]) ∨ ∀ c ∈ g, p c = false) := by
  induction s with
  | nil =>
    refine ⟨⟨[], [], rfl, by simp⟩, ?_⟩
    intro g hg
    simp only [splitPuncAux, List.mem_singleton] at hg
    subst hg
    simp
  | cons c cs ih =>
    obtain ⟨⟨h0, t0, hsh0, hh0⟩, hall⟩ := ih
    by_cases hp : p c = true
    · refine ⟨⟨[], [c] :: splitPuncAux p cs, by simp [splitPuncAux, hp],
        by simp⟩, ?_⟩
      intro g hg
      simp only [splitPuncAux, hp, if_true, List.mem_cons] at hg
      rcases hg with rfl | rfl | hg
      · simp
      · exact ⟨by simp, Or.inl ⟨c, rfl⟩⟩
      · have hres := hall g hg
        exact ⟨fun d hd => by simp [hres.1 d hd], hres.2⟩
    · have hp' : p c = false := by simpa using hp
      refine ⟨⟨c :: h0, t0, by simp [splitPuncAux, hp', hsh0], ?_⟩, ?_⟩
      · intro d hd
        rcases List.mem_cons.1 hd with rfl | hd
        · exact hp'
        · exact hh0 d hd
      · intro g hg
        simp only [splitPuncAux, hp', Bool.false_eq_true, if_false, hsh0,
          List.mem_cons] at hg
        rcases hg with rfl | hg
        · refine ⟨?_, Or.inr ?_⟩
          · intro d hd
            rcases List.mem_cons.1 hd with rfl | hd
            · simp
            · have hres := hall h0 (by simp [hsh0]) 
              simp [hres.1 d hd]
          · intro d hd
            rcases List.mem_cons.1 hd with rfl | hd
            · exact hp'
            · exact hh0 d hd
        · have hres := hall g (by simp [hsh0, hg])
          exact ⟨fun d hd => by simp [hres.1 d hd], hres.2⟩

theorem splitPuncAux_nopunct (p : Char → Bool) (u : List Char)
    (h : ∀ c ∈ u, p c = false) : splitPuncAux p u = [u] := by
  induction u with
  | nil => rfl
  | cons c cs ih =>
    have hc : p c = false := h c (by simp)
    simp [splitPuncAux, hc, ih (fun d hd => h d (by simp [hd]))]

end CharacterBert

namespace CharacterBert

/-! ## Segmenter lemmas: processing, cleaning, CJK padding -/

theorem splitPuncAux_filter_singleton (p : Char → Bool) (c : Char) :
    (splitPuncAux p [c]).filter (fun g => !g.isEmpty) = [[c]] := by
  by_cases hp : p c = true
  · simp [splitPuncAux, hp]
  · have hp' : p c = false := by simpa using hp
    simp [splitPuncAux, hp']

theorem processToken_eq (B : BasicTok) (O : SegOracle)
    (ns : List (List Char)) (tok : List Char)
    (h : ns.contains tok = false) :
    processToken B O ns tok = concatMap (procChar B O) tok := by
  unfold processToken
  rw [h]
  simp only [Bool.false_eq_true, if_false]
  by_cases hl : B.do_lower_case = true
  · by_cases hsf : B.strip_accents = some false
    · have hpc : procChar B O = O.lowerChar := by
        funext c
        simp [procChar, hl, hsf]
      rw [hpc, if_pos hl, if_neg (by simp [hsf])]
      rfl
    · have hpc : procChar B O = fun c =>
          (concatMap O.nfdChar (O.lowerChar c)).filter (fun d => !O.isMn d) := by
        funext c
        simp [procChar, hl, hsf]
      rw [hpc, if_pos hl, if_pos hsf]
      unfold runStripAccents lowerStr
      rw [concatMap_concatMap, filter_concatMap]
  · have hl' : B.do_lower_case = false := by simpa using hl
    by_cases hs : B.strip_accents = some true
    · have hpc : procChar B O = fun c =>
          (O.nfdChar c).filter (fun d => !O.isMn d) := by
        funext c
        simp [procChar, hl', hs]
      rw [hpc, if_neg (by simp [hl']), if_pos hs]
      unfold runStripAccents
      rw [filter_concatMap]
    · have hpc : procChar B O = fun c => [c] := by
        funext c
        simp [procChar, hl', hs]
      rw [hpc, if_neg (by simp [hl']), if_neg hs]
      exact (concatMap_fixed (fun c _ => rfl)).symm

theorem pass2_token (B : BasicTok) (O : SegOracle) (ns : List (List Char))
    (u : List Char) (hne : u ≠ []) (hst : Stable B O ns u) :
    runSplitOnPunc B O (processToken B O ns u) ns = [u] := by
  by_cases hmem : ns.contains u = true
  · have hproc : processToken B O ns u = u := by
      unfold processToken
      rw [hmem]
      rfl
    rw [hproc]
    unfold runSplitOnPunc
    rw [hmem]
    simp
  · have hmem' : ns.contains u = false := by simpa using hmem
    rcases hst with hst | ⟨hfix, hsp⟩
    · exact absurd hst hmem
    have hproc : processToken B O ns u = u := by
      rw [processToken_eq B O ns u hmem']
      exact concatMap_fixed hfix
    rw [hproc]
    unfold runSplitOnPunc
    rw [hmem']
    by_cases hd : B.do_split_on_punc = true
    · have hcond : (!B.do_split_on_punc || false) = false := by simp [hd]
      rw [hcond]
      simp only [Bool.false_eq_true, if_false]
      rw [(splitPuncLoop_spec O u).1 []]
      rcases hsp with hdF | ⟨q, rfl⟩ | hnp
      · rw [hd] at hdF
        cases hdF
      · rw [splitPuncAux_filter_singleton]
        rfl
      · rw [splitPuncAux_nopunct _ _ hnp]
        simp [hne]
    · have hd' : B.do_split_on_punc = false := by simpa using hd
      simp [hd']

theorem cleanText_chars (O : SegOracle) (s : List Char) :
    ∀ c ∈ cleanText O s, c = ' ' ∨ CleanKeep O c := by
  induction s with
  | nil => simp [cleanText]
  | cons x cs ih =>
    intro c hc
    by_cases h1 : (x.toNat = 0 || x.toNat = 0xFFFD || O.isControl x) = true
    · rw [cleanText, if_pos h1] at hc
      exact ih c hc
    · have h1' : (x.toNat = 0 || x.toNat = 0xFFFD || O.isControl x) = false := by
        simpa using h1
      rw [cleanText, if_neg (by simp [h1'])] at hc
      by_cases h2 : O.isWs x = true
      · rw [if_pos h2] at hc
        rcases List.mem_cons.1 hc with rfl | hc
        · exact Or.inl rfl
        · exact ih c hc
      · have h2' : O.isWs x = false := by simpa using h2
        rw [if_neg (by simp [h2'])] at hc
        rcases List.mem_cons.1 hc with rfl | hc
        · refine Or.inr ⟨?_, ?_, ?_, h2'⟩ <;> simp_all
        · exact ih c hc

theorem cleanText_fixed (O : SegOracle) (s : List Char)
    (h1 : O.isWs ' ' = true) (h2 : O.isControl ' ' = false)
    (h : ∀ c ∈ s, c = ' ' ∨ CleanKeep O c) : cleanText O s = s := by
  induction s with
  | nil => rfl
  | cons x cs ih =>
    have hx := h x (by simp)
    have htail : cleanText O cs = cs := ih (fun c hc => h c (by simp [hc]))
    rcases hx with rfl | ⟨hx0, hxf, hxc, hxw⟩
    · rw [cleanText, if_neg (by simp [h2]), if_pos h1, htail]
    · rw [cleanText, if_neg (by simp [hx0, hxf, hxc]), if_neg (by simp [hxw]),
        htail]

theorem padChinese_append (a b : List Char) :
    padChinese (a ++ b) = padChinese a ++ padChinese b := by
  induction a with
  | nil => rfl
  | cons c a ih =>
    by_cases hc : isChineseCp c.toNat = true
    · simp [padChinese, hc, ih]
    · have hc' : isChineseCp c.toNat = false := by simpa using hc
      simp [padChinese, hc', ih]

theorem padChinese_fixed (s : List Char)
    (h : ∀ c ∈ s, isChineseCp c.toNat = false) : padChinese s = s := by
  induction s with
  | nil => rfl
  | cons c cs ih =>
    have hc := h c (by simp)
    simp [padChinese, hc, ih (fun d hd => h d (by simp [hd]))]

theorem padChinese_chars (s : List Char) :
    ∀ c ∈ padChinese s, c = ' ' ∨ c ∈ s := by
  induction s with
  | nil => simp [padChinese]
  | cons x cs ih =>
    intro c hc
    by_cases hx : isChineseCp x.toNat = true
    · rw [padChinese, if_pos hx] at hc
      rcases List.mem_cons.1 hc with rfl | hc
      · exact Or.inl rfl
      · rcases List.mem_cons.1 hc with rfl | hc
        · exact Or.inr (by simp)
        · rcases List.mem_cons.1 hc with rfl | hc
          · exact Or.inl rfl
          · rcases ih c hc with h | h
            · exact Or.inl h
            · exact Or.inr (by simp [h])
    · have hx' : isChineseCp x.toNat = false := by simpa using hx
      rw [padChinese, if_neg (by simp [hx'])] at hc
      rcases List.mem_cons.1 hc with rfl | hc
      · exact Or.inr (by simp)
      · rcases ih c hc with h | h
        · exact Or.inl h
        · exact Or.inr (by simp [h])

theorem joinSep_chars (l : List (List Char)) :
    ∀ c ∈ joinSep l, c = ' ' ∨ ∃ u ∈ l, c ∈ u := by
  induction l with
  | nil => simp [joinSep]
  | cons u us ih =>
    intro c hc
    cases us with
    | nil =>
      exact Or.inr ⟨u, by simp, hc⟩
    | cons v vs =>
      rw [show joinSep (u :: v :: vs) = u ++ ' ' :: joinSep (v :: vs) from rfl]
        at hc
      rcases List.mem_append.1 hc with hc | hc
      · exact Or.inr ⟨u, by simp, hc⟩
      · rcases List.mem_cons.1 hc with rfl | hc
        · exact Or.inl rfl
        · rcases ih c hc with h | ⟨x, hx, hcx⟩
          · exact Or.inl h
          · exact Or.inr ⟨x, by simp [hx], hcx⟩

theorem mem_concatMapToks {f : List Char → List (List Char)}
    {l : List (List Char)} {u : List Char}
    (hu : u ∈ concatMapToks f l) : ∃ t ∈ l, u ∈ f t := by
  induction l with
  | nil => simp [concatMapToks] at hu
  | cons t ts ih =>
    simp only [concatMapToks, List.mem_append] at hu
    rcases hu with hu | hu
    · exact ⟨t, by simp, hu⟩
    · obtain ⟨x, hx, hux⟩ := ih hu
      exact ⟨x, by simp [hx], hux⟩

theorem concatMapToks_id {f : List Char → List (List Char)}
    {l : List (List Char)} (h : ∀ u ∈ l, f u = [u]) :
    concatMapToks f l = l := by
  induction l with
  | nil => rfl
  | cons t ts ih =>
    simp only [concatMapToks]
    rw [h t (by simp), ih (fun u hu => h u (by simp [hu]))]
    rfl

end CharacterBert

namespace CharacterBert

/-! ## Segmenter lemmas: joins and distribution -/

theorem wsTokenize_ws_cons (O : SegOracle) (c : Char) (x : List Char)
    (hc : O.isWs c = true) : wsTokenize O (c :: x) = wsTokenize O x := by
  unfold wsTokenize
  simp [splitWsAux, hc]

theorem splitWsAux_prepend (w : Char → Bool) (a r : List Char)
    (ha : ∀ c ∈ a, w c = false) :
    ∃ g gs, splitWsAux w r = g :: gs
      ∧ splitWsAux w (a ++ r) = (a ++ g) :: gs := by
  induction a with
  | nil =>
    obtain ⟨g, gs, hg⟩ : ∃ g gs, splitWsAux w r = g :: gs := by
      cases h : splitWsAux w r with
      | nil => exact absurd h (splitWsAux_ne_nil w r)
      | cons g gs => exact ⟨g, gs, rfl⟩
    exact ⟨g, gs, hg, by simp [hg]⟩
  | cons x a ih =>
    obtain ⟨g, gs, hg, hag⟩ := ih (fun c hc => ha c (by simp [hc]))
    have hx : w x = false := ha x (by simp)
    exact ⟨g, gs, hg, by simp [splitWsAux, hx, hag]⟩

theorem wsTokenize_joinSep_flat (O : SegOracle) (l : List (List Char))
    (h1 : O.isWs ' ' = true) :
    wsTokenize O (joinSep l) = concatMapToks (wsTokenize O) l := by
  induction l with
  | nil => rfl
  | cons u us ih =>
    cases us with
    | nil => show wsTokenize O u = wsTokenize O u ++ concatMapToks _ []
             simp [concatMapToks]
    | cons v vs =>
      rw [show joinSep (u :: v :: vs) = u ++ ' ' :: joinSep (v :: vs) from rfl,
        wsTokenize_append O u _ ' ' h1, ih]
      rfl

theorem padChinese_joinSep (l : List (List Char)) :
    padChinese (joinSep l) = joinSep (l.map padChinese) := by
  induction l with
  | nil => rfl
  | cons u us ih =>
    cases us with
    | nil => rfl
    | cons v vs =>
      rw [show joinSep (u :: v :: vs) = u ++ ' ' :: joinSep (v :: vs) from rfl,
        padChinese_append]
      have hsp : padChinese (' ' :: joinSep (v :: vs))
          = ' ' :: padChinese (joinSep (v :: vs)) := by
        rw [padChinese, if_neg (by decide)]
      rw [hsp, ih]
      rfl

theorem nfcStr_joinSep (O : SegOracle) (l : List (List Char))
    (h3 : O.nfcChar ' ' = [' ']) :
    nfcStr O (joinSep l) = joinSep (l.map (nfcStr O)) := by
  induction l with
  | nil => rfl
  | cons u us ih =>
    cases us with
    | nil => rfl
    | cons v vs =>
      rw [show joinSep (u :: v :: vs) = u ++ ' ' :: joinSep (v :: vs) from rfl]
      unfold nfcStr
      rw [concatMap_append]
      have hsp : concatMap O.nfcChar (' ' :: joinSep (v :: vs))
          = ' ' :: concatMap O.nfcChar (joinSep (v :: vs)) := by
        rw [concatMap, h3]
        rfl
      rw [hsp]
      have := ih
      unfold nfcStr at this
      rw [this]
      rfl

theorem concatMapToks_map_id (g : List Char → List (List Char))
    (f : List Char → List Char) (l : List (List Char))
    (h : ∀ u ∈ l, g (f u) = [u]) : concatMapToks g (l.map f) = l := by
  induction l with
  | nil => rfl
  | cons u us ih =>
    simp only [List.map_cons, concatMapToks]
    rw [h u (by simp), ih (fun t ht => h t (by simp [ht]))]
    rfl

theorem tokenize_eq (B : BasicTok) (O : SegOracle) (text : List Char)
    (arg : List (List Char)) :
    B.tokenize O text arg
      = wsTokenize O (joinSep (concatMapToks
          (fun token => runSplitOnPunc B O
            (processToken B O (B.never_split ++ arg) token)
            (B.never_split ++ arg))
          (wsTokenize O (nfcStr O
            (if B.tokenize_chinese_chars then padChinese (cleanText O text)
             else cleanText O text))))) := rfl

end CharacterBert

namespace CharacterBert

/-! ## Segmenter lemmas: structure of the first-pass whitespace tokens -/

theorem nfc_tokens_chars (B : BasicTok) (O : SegOracle) (hG : GoodOracle B O)
    (s : List Char) (hs : ∀ c ∈ s, c = ' ' ∨ CleanKeep O c) :
    ∀ u ∈ wsTokenize O (nfcStr O s),
      u ≠ [] ∧ ∀ c ∈ u, CleanKeep O c ∧ O.nfcChar c = [c] := by
  intro u hu
  have htok := wsTokenize_tokens O _ u hu
  refine ⟨htok.1, ?_⟩
  intro c hc
  have hcw := (htok.2 c hc).1
  have hcs := (htok.2 c hc).2
  obtain ⟨d, hd, hcd⟩ := mem_concatMap hcs
  rcases hs d hd with rfl | hdk
  · rw [hG.nfc_space] at hcd
    simp only [List.mem_singleton] at hcd
    subst hcd
    rw [hG.ws_space] at hcw
    cases hcw
  · exact ⟨hG.nfc_clean d hdk c hcd, hG.nfc_fix d hdk c hcd⟩

theorem cjk_tokens_structure (B : BasicTok) (O : SegOracle)
    (hG : GoodOracle B O) (s : List Char)
    (hs : ∀ c ∈ s, c = ' ' ∨ CleanKeep O c) :
    (∀ u ∈ wsTokenize O (nfcStr O (padChinese s)),
        (∃ c, u = [c]) ∨ ∀ c ∈ u, isChineseCp c.toNat = false)
      ∧ ∀ c ∈ (nfcStr O (padChinese s)).takeWhile (fun d => !O.isWs d),
          isChineseCp c.toNat = false := by
  induction s with
  | nil =>
    constructor
    · intro u hu
      simp [padChinese, nfcStr, concatMap, wsTokenize, splitWsAux] at hu
    · simp [padChinese, nfcStr, concatMap]
  | cons x s ih =>
    obtain ⟨ih1, ih2⟩ := ih (fun c hc => hs c (by simp [hc]))
    by_cases hx : isChineseCp x.toNat = true
    · have hpad : padChinese (x :: s) = ' ' :: x :: ' ' :: padChinese s := by
        rw [padChinese, if_pos hx]
      have hnfc : nfcStr O (padChinese (x :: s))
          = ' ' :: x :: ' ' :: nfcStr O (padChinese s) := by
        rw [hpad]
        show O.nfcChar ' ' ++ (O.nfcChar x ++ (O.nfcChar ' '
          ++ nfcStr O (padChinese s))) = _
        rw [hG.nfc_space, (hG.cjk_fix x hx).1]
        rfl
      have hxws : O.isWs x = false := hG.cjk_not_ws x hx
      constructor
      · intro u hu
        rw [hnfc, wsTokenize_ws_cons O ' ' _ hG.ws_space,
          show (x :: ' ' :: nfcStr O (padChinese s))
            = [x] ++ ' ' :: nfcStr O (padChinese s) from rfl,
          wsTokenize_append O [x] _ ' ' hG.ws_space,
          wsTokenize_nows O [x] (by simp) (by simp [hxws])] at hu
        rcases List.mem_append.1 hu with hu | hu
        · simp only [List.mem_singleton] at hu
          subst hu
          exact Or.inl ⟨x, rfl⟩
        · exact ih1 u hu
      · rw [hnfc]
        simp [List.takeWhile_cons, hG.ws_space]
    · have hx' : isChineseCp x.toNat = false := by simpa using hx
      have hpad : padChinese (x :: s) = x :: padChinese s := by
        rw [padChinese, if_neg (by simp [hx'])]
      rcases hs x (by simp) with rfl | hxk
      · have hnfc : nfcStr O (padChinese (' ' :: s))
            = ' ' :: nfcStr O (padChinese s) := by
          rw [hpad]
          show O.nfcChar ' ' ++ nfcStr O (padChinese s) = _
          rw [hG.nfc_space]
          rfl
        constructor
        · intro u hu
          rw [hnfc, wsTokenize_ws_cons O ' ' _ hG.ws_space] at hu
          exact ih1 u hu
        · rw [hnfc]
          simp [List.takeWhile_cons, hG.ws_space]
      · have hnfc : nfcStr O (padChinese (x :: s))
            = O.nfcChar x ++ nfcStr O (padChinese s) := by
          rw [hpad]
          rfl
        have haws : ∀ c ∈ O.nfcChar x, O.isWs c = false :=
          fun c hc => (hG.nfc_clean x hxk c hc).2.2.2
        have hacjk : ∀ c ∈ O.nfcChar x, isChineseCp c.toNat = false :=
          hG.nfc_nocjk x hxk hx'
        constructor
        · intro u hu
          rw [hnfc] at hu
          obtain ⟨g, gs, hg, hag⟩ :=
            splitWsAux_prepend O.isWs (O.nfcChar x) _ haws
          unfold wsTokenize at hu
          rw [hag] at hu
          rcases List.mem_filter.1 hu with ⟨humem, hupred⟩
          rcases List.mem_cons.1 humem with rfl | humem2
          · right
            intro c hc
            rcases List.mem_append.1 hc with hc | hc
            · exact hacjk c hc
            · obtain ⟨gs2, hsh⟩ := splitWsAux_shape O.isWs
                (nfcStr O (padChinese s))
              rw [hg] at hsh
              injection hsh with hh _
              exact ih2 c (hh ▸ hc)
          · have humem3 : u ∈ wsTokenize O (nfcStr O (padChinese s)) := by
              unfold wsTokenize
              rw [hg, List.mem_filter]
              exact ⟨by simp [humem2], hupred⟩
            exact ih1 u humem3
        · rw [hnfc]
          intro c hc
          rw [List.takeWhile_append_of_pos
            (fun d hd => by simp [haws d hd])] at hc
          rcases List.mem_append.1 hc with hc | hc
          · exact hacjk c hc
          · exact ih2 c hc

theorem toks_good (B : BasicTok) (O : SegOracle) (hG : GoodOracle B O)
    (s : List Char) (hs : ∀ c ∈ s, c = ' ' ∨ CleanKeep O c) :
    ∀ u ∈ wsTokenize O (nfcStr O
        (if B.tokenize_chinese_chars then padChinese s else s)),
      u ≠ [] ∧ (∀ c ∈ u, CleanKeep O c ∧ O.nfcChar c = [c])
        ∧ (B.tokenize_chinese_chars = true →
            ((∃ c, u = [c]) ∨ ∀ c ∈ u, isChineseCp c.toNat = false)) := by
  intro u hu
  by_cases htcc : B.tokenize_chinese_chars = true
  · rw [if_pos htcc] at hu
    have hpadchars : ∀ c ∈ padChinese s, c = ' ' ∨ CleanKeep O c := by
      intro c hc
      rcases padChinese_chars s c hc with h | h
      · exact Or.inl h
      · exact hs c h
    have h1 := nfc_tokens_chars B O hG (padChinese s) hpadchars u hu
    exact ⟨h1.1, h1.2, fun _ => (cjk_tokens_structure B O hG s hs).1 u hu⟩
  · rw [if_neg htcc] at hu
    have h1 := nfc_tokens_chars B O hG s hs u hu
    exact ⟨h1.1, h1.2, fun h => absurd h htcc⟩

end CharacterBert

namespace CharacterBert

/-! ## Segmenter lemmas: properties carried by the output tokens -/

theorem split_pieces_good (B : BasicTok) (O : SegOracle) (hG : GoodOracle B O)
    (ns : List (List Char)) (tok : List Char)
    (htokchars : ∀ c ∈ tok, CleanKeep O c ∧ O.nfcChar c = [c])
    (htokcjk : B.tokenize_chinese_chars = true →
      ((∃ c, tok = [c]) ∨ ∀ c ∈ tok, isChineseCp c.toNat = false)) :
    ∀ u ∈ runSplitOnPunc B O (processToken B O ns tok) ns,
      (∀ c ∈ u, CleanKeep O c ∧ O.nfcChar c = [c])
        ∧ (B.tokenize_chinese_chars = true →
            ((∃ c, u = [c]) ∨ ∀ c ∈ u, isChineseCp c.toNat = false))
        ∧ Stable B O ns u := by
  by_cases hmem : ns.contains tok = true
  · have hproc : processToken B O ns tok = tok := by
      unfold processToken
      rw [hmem]
      rfl
    rw [hproc]
    unfold runSplitOnPunc
    rw [hmem]
    simp only [Bool.or_true, if_true]
    intro u hu
    simp only [List.mem_singleton] at hu
    subst hu
    exact ⟨htokchars, htokcjk, Or.inl hmem⟩
  · have hmem' : ns.contains tok = false := by simpa using hmem
    rw [processToken_eq B O ns tok hmem']
    have ht2chars : ∀ c2 ∈ concatMap (procChar B O) tok,
        CleanKeep O c2 ∧ O.nfcChar c2 = [c2] ∧ procChar B O c2 = [c2] := by
      intro c2 hc2
      obtain ⟨c, hc, hc2c⟩ := mem_concatMap hc2
      have hck := (htokchars c hc).1
      exact ⟨hG.proc_clean c hck c2 hc2c, (hG.proc_fix c hck c2 hc2c).1,
        (hG.proc_fix c hck c2 hc2c).2⟩
    have ht2cjk : B.tokenize_chinese_chars = true →
        ((∃ c, concatMap (procChar B O) tok = [c])
          ∨ ∀ c ∈ concatMap (procChar B O) tok,
              isChineseCp c.toNat = false) := by
      intro htcc
      rcases htokcjk htcc with ⟨c, rfl⟩ | hno
      · by_cases hcjk : isChineseCp c.toNat = true
        · left
          exact ⟨c, by simp [concatMap, (hG.cjk_fix c hcjk).2]⟩
        · right
          intro c2 hc2
          obtain ⟨d, hd, hc2d⟩ := mem_concatMap hc2
          simp only [List.mem_singleton] at hd
          subst hd
          exact hG.proc_nocjk d (htokchars d (by simp)).1
            (by simpa using hcjk) c2 hc2d
      · right
        intro c2 hc2
        obtain ⟨d, hd, hc2d⟩ := mem_concatMap hc2
        exact hG.proc_nocjk d (htokchars d hd).1 (hno d hd) c2 hc2d
    set t2 := concatMap (procChar B O) tok with ht2
    unfold runSplitOnPunc
    by_cases hm2 : ns.contains t2 = true
    · rw [hm2]
      simp only [Bool.or_true, if_true]
      intro u hu
      simp only [List.mem_singleton] at hu
      subst hu
      exact ⟨fun c hc => ⟨(ht2chars c hc).1, (ht2chars c hc).2.1⟩, ht2cjk,
        Or.inl hm2⟩
    · have hm2' : ns.contains t2 = false := by simpa using hm2
      rw [hm2']
      by_cases hd : B.do_split_on_punc = true
      · have hcond : (!B.do_split_on_punc || false) = false := by simp [hd]
        rw [hcond]
        simp only [Bool.false_eq_true, if_false]
        rw [(splitPuncLoop_spec O t2).1 []]
        simp only [List.nil_append]
        intro u hu
        rcases List.mem_filter.1 hu with ⟨humem, hupred⟩
        have hgood := (splitPuncAux_good O.isPunct t2).2 u humem
        have hchars : ∀ c ∈ u, CleanKeep O c ∧ O.nfcChar c = [c] :=
          fun c hc => ⟨(ht2chars c (hgood.1 c hc)).1,
            (ht2chars c (hgood.1 c hc)).2.1⟩
        refine ⟨hchars, ?_, ?_⟩
        · intro htcc
          rcases ht2cjk htcc with ⟨c, hc⟩ | hno
          · left
            have hu2 : u ∈ [[c]] := by
              rw [← splitPuncAux_filter_singleton O.isPunct c, ← hc]
              exact List.mem_filter.2 ⟨humem, hupred⟩
            simp only [List.mem_singleton] at hu2
            exact ⟨c, hu2⟩
          · exact Or.inr (fun c hc => hno c (hgood.1 c hc))
        · right
          refine ⟨fun c hc => (ht2chars c (hgood.1 c hc)).2.2, ?_⟩
          rcases hgood.2 with ⟨q, rfl⟩ | hnp
          · exact Or.inr (Or.inl ⟨q, rfl⟩)
          · exact Or.inr (Or.inr hnp)
      · have hd' : B.do_split_on_punc = false := by simpa using hd
        have hcond : (!B.do_split_on_punc || false) = true := by simp [hd']
        rw [hcond]
        simp only [if_true]
        intro u hu
        simp only [List.mem_singleton] at hu
        subst hu
        exact ⟨fun c hc => ⟨(ht2chars c hc).1, (ht2chars c hc).2.1⟩, ht2cjk,
          Or.inr ⟨fun c hc => (ht2chars c hc).2.2, Or.inl hd'⟩⟩

theorem tokenize_out (B : BasicTok) (O : SegOracle) (hG : GoodOracle B O)
    (text : List Char) (arg : List (List Char)) :
    ∀ u ∈ B.tokenize O text arg,
      u ≠ [] ∧ (∀ c ∈ u, CleanKeep O c ∧ O.nfcChar c = [c])
        ∧ (B.tokenize_chinese_chars = true →
            ((∃ c, u = [c]) ∨ ∀ c ∈ u, isChineseCp c.toNat = false))
        ∧ Stable B O (B.never_split ++ arg) u := by
  intro u hu
  rw [tokenize_eq] at hu
  have hpieces : ∀ p ∈ concatMapToks
      (fun token => runSplitOnPunc B O
        (processToken B O (B.never_split ++ arg) token) (B.never_split ++ arg))
      (wsTokenize O (nfcStr O
        (if B.tokenize_chinese_chars then padChinese (cleanText O text)
         else cleanText O text))),
      (∀ c ∈ p, CleanKeep O c ∧ O.nfcChar c = [c])
        ∧ (B.tokenize_chinese_chars = true →
            ((∃ c, p = [c]) ∨ ∀ c ∈ p, isChineseCp c.toNat = false))
        ∧ Stable B O (B.never_split ++ arg) p := by
    intro p hp
    obtain ⟨tok, htokmem, hptok⟩ := mem_concatMapToks hp
    have htokgood := toks_good B O hG (cleanText O text)
      (cleanText_chars O text) tok htokmem
    exact split_pieces_good B O hG (B.never_split ++ arg) tok htokgood.2.1
      htokgood.2.2 p hptok
  have hwsfree : ∀ p ∈ concatMapToks
      (fun token => runSplitOnPunc B O
        (processToken B O (B.never_split ++ arg) token) (B.never_split ++ arg))
      (wsTokenize O (nfcStr O
        (if B.tokenize_chinese_chars then padChinese (cleanText O text)
         else cleanText O text))),
      ∀ c ∈ p, O.isWs c = false :=
    fun p hp c hc => ((hpieces p hp).1 c hc).1.2.2.2
  rw [wsTokenize_joinSep O _ hG.ws_space hwsfree] at hu
  rcases List.mem_filter.1 hu with ⟨humem, hupred⟩
  have hp := hpieces u humem
  exact ⟨by simpa using hupred, hp.1, hp.2.1, hp.2.2⟩

end CharacterBert

namespace CharacterBert

/-! ## Claim theorem: segmentation idempotence -/

theorem pass2_single_token (B : BasicTok) (O : SegOracle) (hG : GoodOracle B O)
    (u : List Char) (hne : u ≠ [])
    (hchars : ∀ c ∈ u, CleanKeep O c ∧ O.nfcChar c = [c])
    (hcjk : B.tokenize_chinese_chars = true →
      ((∃ c, u = [c]) ∨ ∀ c ∈ u, isChineseCp c.toNat = false)) :
    wsTokenize O (nfcStr O
      (if B.tokenize_chinese_chars then padChinese u else u)) = [u] := by
  have hnws : ∀ c ∈ u, O.isWs c = false :=
    fun c hc => (hchars c hc).1.2.2.2
  have hnfcfix : nfcStr O u = u :=
    concatMap_fixed (fun c hc => (hchars c hc).2)
  by_cases htcc : B.tokenize_chinese_chars = true
  · rw [if_pos htcc]
    rcases hcjk htcc with ⟨c, rfl⟩ | hno
    · by_cases hc : isChineseCp c.toNat = true
      · have hpad : padChinese [c] = [' ', c, ' '] := by
          simp [padChinese, hc]
        rw [hpad]
        have hnfc : nfcStr O [' ', c, ' '] = [' ', c, ' '] := by
          show O.nfcChar ' ' ++ (O.nfcChar c ++ (O.nfcChar ' ' ++ [])) = _
          rw [hG.nfc_space, (hchars c (by simp)).2]
          rfl
        rw [hnfc, wsTokenize_ws_cons O ' ' _ hG.ws_space,
          show ([c, ' '] : List Char) = [c] ++ ' ' :: [] from rfl,
          wsTokenize_append O [c] [] ' ' hG.ws_space,
          wsTokenize_nows O [c] (by simp) (by simp [hnws c (by simp)])]
        rfl
      · have hc' : isChineseCp c.toNat = false := by simpa using hc
        rw [padChinese_fixed [c] (by simp [hc']), hnfcfix]
        exact wsTokenize_nows O [c] (by simp) hnws
    · rw [padChinese_fixed u hno, hnfcfix]
      exact wsTokenize_nows O u hne hnws
  · rw [if_neg htcc, hnfcfix]
    exact wsTokenize_nows O u hne hnws

/-- C8 (confirmed, spec-modelled external collaborators): segmentation is
idempotent on its own output.  For every input text, protected set and
tokenizer flags, re-tokenizing the space-joined output of
`BasicTokenizer.tokenize` yields the same token sequence, provided the
Unicode oracle satisfies the `GoodOracle` stability laws (facts of the real
Unicode classifiers and of the character-wise normalization model). -/
theorem C8_segmentation_idempotent (B : BasicTok) (O : SegOracle)
    (hG : GoodOracle B O) (text : List Char) (arg : List (List Char)) :
    B.tokenize O (joinSep (B.tokenize O text arg)) arg
      = B.tokenize O text arg := by
  have hout := tokenize_out B O hG text arg
  set out := B.tokenize O text arg with hout_def
  have hjchars : ∀ c ∈ joinSep out, c = ' ' ∨ CleanKeep O c := by
    intro c hc
    rcases joinSep_chars out c hc with h | ⟨u, hu, hcu⟩
    · exact Or.inl h
    · exact Or.inr ((hout u hu).2.1 c hcu).1
  have hclean : cleanText O (joinSep out) = joinSep out :=
    cleanText_fixed O _ hG.ws_space hG.control_space hjchars
  have htoks2 : wsTokenize O (nfcStr O
      (if B.tokenize_chinese_chars then padChinese (joinSep out)
       else joinSep out)) = out := by
    by_cases htcc : B.tokenize_chinese_chars = true
    · rw [if_pos htcc, padChinese_joinSep, nfcStr_joinSep O _ hG.nfc_space,
        wsTokenize_joinSep_flat O _ hG.ws_space, List.map_map]
      exact concatMapToks_map_id _ _ out (fun u hu => by
        have h := hout u hu
        have hid := pass2_single_token B O hG u h.1 h.2.1 h.2.2.1
        rw [if_pos htcc] at hid
        simpa using hid)
    · rw [if_neg htcc, nfcStr_joinSep O _ hG.nfc_space,
        wsTokenize_joinSep_flat O _ hG.ws_space]
      exact concatMapToks_map_id _ _ out (fun u hu => by
        have h := hout u hu
        have hid := pass2_single_token B O hG u h.1 h.2.1 h.2.2.1
        rw [if_neg htcc] at hid
        simpa using hid)
  have hsplit2 : concatMapToks
      (fun token => runSplitOnPunc B O
        (processToken B O (B.never_split ++ arg) token)
        (B.never_split ++ arg)) out = out :=
    concatMapToks_id (fun u hu => pass2_token B O (B.never_split ++ arg) u
      (hout u hu).1 (hout u hu).2.2.2)
  have hfinal : wsTokenize O (joinSep out) = out := by
    rw [wsTokenize_joinSep O out hG.ws_space
      (fun u hu c hc => ((hout u hu).2.1 c hc).1.2.2.2)]
    exact List.filter_eq_self.2
      (fun u hu => by simpa [List.isEmpty_iff] using (hout u hu).1)
  rw [tokenize_eq, hclean, htoks2, hsplit2, hfinal]

/-- C8 witness: the idempotence theorem applied to a concrete ASCII/CJK
text with the concrete oracle `segO` and default flags, all `GoodOracle`
laws discharged explicitly. -/
theorem C8_segmentation_idempotent_witness :
    segB.tokenize segO (joinSep (segB.tokenize segO segText [])) []
      = segB.tokenize segO segText [] := by
  have hproc : ∀ c, procChar segB segO c = [c] := fun c => rfl
  refine C8_segmentation_idempotent segB segO ?_ segText []
  refine ⟨rfl, rfl, rfl, ?_, ?_, ?_, ?_, ?_, ?_, ?_, ?_⟩
  · intro c hc c2 hc2
    simp only [segO, List.mem_singleton] at hc2
    subst hc2
    exact hc
  · intro c hc c2 hc2
    rw [hproc] at hc2
    simp only [List.mem_singleton] at hc2
    subst hc2
    exact hc
  · intro c hc c2 hc2
    simp only [segO, List.mem_singleton] at hc2
    subst hc2
    rfl
  · intro c hc c2 hc2
    rw [hproc] at hc2
    simp only [List.mem_singleton] at hc2
    subst hc2
    exact ⟨rfl, rfl⟩
  · exact fun c hc => ⟨rfl, rfl⟩
  · intro c hc
    cases hcw : segO.isWs c with
    | false => rfl
    | true =>
      have hsp : c = ' ' := by
        have : (c == ' ') = true := hcw
        simpa using this
      subst hsp
      simp [isChineseCp] at hc
  · intro c hck hc c2 hc2
    simp only [segO, List.mem_singleton] at hc2
    subst hc2
    exact hc
  · intro c hck hc c2 hc2
    rw [hproc] at hc2
    simp only [List.mem_singleton] at hc2
    subst hc2
    exact hc

end CharacterBert
